import Mathlib

/-!
Verification of the proximity-based pairing and interval-coverage selection
toolkit (module `by`): nearest-neighbor point matching, greedy close-pair
generation between two sorted sequences, and minimal-covering-sublist
selection over a sorted sequence of interval markers.

The Python functions are shallowly embedded as executable Lean functions:

* `first_pair_within_radius`  embeds `_first_pair_within_radius`;
* `close_pairs_loop` embeds the `while x1 <= x2` loop of `_close_pairs_helper`,
  and `close_pairs_helper` embeds `_close_pairs_helper` itself;
* `gen_of_close_pairs_from_iterables` embeds the function of the same name
  (the spec calls it `close_pairs`);
* `sublist_scan` embeds the `for x in sorted_segment_mins` loop of
  `sublist_that_contains_segment`, and `sublist_that_contains_segment` embeds
  the function of the same name (the spec calls it `covering_sublist`);
* `gen_nearest_neighbor_matching_pairs` embeds the function of the same name
  (the spec calls it `nn_match`), with the external nearest-neighbor index
  modelled from the spec as a brute-force scan.

Values of the two close-pair sequences are integers; the distance function and
the radius are explicit parameters, as in the source.  The marker values of the
coverage selector live in `SegVal`, the integers extended with `-inf` and
`+inf`, because the source initialises its running state with `-inf` and uses
`-inf`/`+inf` as the defaults (and `None`-replacements) for `from_val` and
`to_val`.  A raised `AssertionError` is embedded as `Except.error` of the
source's message.
-/

/-- Embeds the scanning loop of `_first_pair_within_radius` (`for i, x1 in
enumerate(it1)`), carrying the enumeration index `i`.  Returns `(some i, none)`
when the scan overshoots (`x1 > x2`), `(some i, some x1)` on the first match
(`dist_func x1 x2 ≤ radius`), and `(none, none)` when `it1` is exhausted. -/
def first_pair_scan (x2 radius : ℤ) (dist_func : ℤ → ℤ → ℤ) :
    List ℤ → ℕ → Option ℕ × Option ℤ
  | [], _ => (none, none)
  | x1 :: rest, i =>
    if x2 < x1 then (some i, none)
    else if dist_func x1 x2 ≤ radius then (some i, some x1)
    else first_pair_scan x2 radius dist_func rest (i + 1)

/-- Embeds `_first_pair_within_radius(it1, x2, radius, dist_func)`. -/
def first_pair_within_radius (it1 : List ℤ) (x2 radius : ℤ)
    (dist_func : ℤ → ℤ → ℤ) : Option ℕ × Option ℤ :=
  first_pair_scan x2 radius dist_func it1 0

/-- Embeds the `while x1 <= x2` loop of `_close_pairs_helper`: scan `it1` for
the first element matching the front of `it2`; on a match at index `i` emit the
pair (order controlled by `inverted`), drop `it1`'s elements up to and
including the match and pop the front of `it2`, and continue while the new
fronts exist and still satisfy `x1 ≤ x2`; on overshoot or an exhausted scan
stop (`break`). -/
def close_pairs_loop (it1 it2 : List ℤ) (radius : ℤ) (inverted : Bool)
    (dist_func : ℤ → ℤ → ℤ) : List (ℤ × ℤ) :=
  match it1, it2 with
  | x1 :: t1, x2 :: t2 =>
    if x1 ≤ x2 then
      match first_pair_within_radius (x1 :: t1) x2 radius dist_func with
      | (some i, some y) =>
        (if inverted then (x2, y) else (y, x2)) ::
          close_pairs_loop ((x1 :: t1).drop (i + 1)) t2 radius inverted dist_func
      | _ => []
    else []
  | _, _ => []

/-- Embeds `_close_pairs_helper(it1, it2, radius, inverted, dist_func)`: if
both lists are non-empty and `x1 ≤ x2`, run the scanning loop; if `x1 > x2`,
the source recurses with the two lists exchanged and the inversion flag
flipped.  The exchanged fronts satisfy `x2 < x1`, so that recursive call
immediately enters the scanning loop; the recursion is therefore unfolded once
here (keeping the definition kernel-reducible), and
`close_pairs_helper_swap_eq` proves the source's recursive equation. -/
def close_pairs_helper (it1 it2 : List ℤ) (radius : ℤ) (inverted : Bool)
    (dist_func : ℤ → ℤ → ℤ) : List (ℤ × ℤ) :=
  match it1, it2 with
  | x1 :: t1, x2 :: t2 =>
    if x1 ≤ x2 then close_pairs_loop (x1 :: t1) (x2 :: t2) radius inverted dist_func
    else close_pairs_loop (x2 :: t2) (x1 :: t1) radius (!inverted) dist_func
  | _, _ => []

/-- Embeds `gen_of_close_pairs_from_iterables(it1, it2, radius, dist_func)`
(the spec's `close_pairs`): sort both inputs ascending (the source sorts them
twice, which is reproduced literally) and run the helper with
`inverted = False`. -/
def gen_of_close_pairs_from_iterables (it1 it2 : List ℤ) (radius : ℤ)
    (dist_func : ℤ → ℤ → ℤ) : List (ℤ × ℤ) :=
  close_pairs_helper (List.insertionSort (· ≤ ·) (List.insertionSort (· ≤ ·) it1))
    (List.insertionSort (· ≤ ·) (List.insertionSort (· ≤ ·) it2)) radius false dist_func

/-- The default distance function of the source, `lambda x1, x2: abs(x1 - x2)`. -/
def abs_diff : ℤ → ℤ → ℤ := fun x1 x2 => |x1 - x2|

/-- A non-negative but asymmetric distance function, used to probe whether the
radius guarantee depends on symmetry of `dist_func`. -/
def d_oneway : ℤ → ℤ → ℤ := fun x y => max (x - y) 0

/-- The value domain of the coverage selector: integers extended with the
source's `-inf` (`⊥`) and `+inf`. -/
abbrev SegVal : Type := WithBot (WithTop ℤ)

/-- The source's `-inf = float('infinity')` with a minus sign. -/
def negInf : SegVal := ⊥

/-- The source's `inf = float('infinity')`. -/
def posInf : SegVal := ((⊤ : WithTop ℤ) : SegVal)

/-- A plain integer marker value. -/
def iv (z : ℤ) : SegVal := ((z : WithTop ℤ) : SegVal)

/-- Embeds the `for x in sorted_segment_mins` loop of
`sublist_that_contains_segment`, carrying `previous_val` and the accumulated
`sublist`: raise on a decrease of the key value, reset the accumulator to
`[x]` below `from_val`, stop (`break`) above `to_val`, append otherwise. -/
def sublist_scan (from_val to_val : SegVal) (x_to_val : α → SegVal) :
    List α → SegVal → List α → Except String (List α)
  | [], _, sublist => .ok sublist
  | x :: rest, previous_val, sublist =>
    let val := x_to_val x
    if val < previous_val then .error "sorted_ts is not sorted"
    else if val < from_val then sublist_scan from_val to_val x_to_val rest val [x]
    else if to_val < val then .ok sublist
    else sublist_scan from_val to_val x_to_val rest val (sublist ++ [x])

/-- Embeds `sublist_that_contains_segment(sorted_segment_mins, from_val,
to_val, key)` (the spec's `covering_sublist`).  A `none` bound is replaced by
the corresponding infinity, as in the source's `if from_val is None` /
`if to_val is None` lines; the polymorphic `key` argument is embedded as the
resolved accessor `x_to_val`. -/
def sublist_that_contains_segment (sorted_segment_mins : List α)
    (from_val to_val : Option SegVal) (x_to_val : α → SegVal) :
    Except String (List α) :=
  sublist_scan (from_val.getD negInf) (to_val.getD posInf) x_to_val
    sorted_segment_mins negInf []

/-- The error-free core of `sublist_scan`: the same accumulator recursion with
the sortedness check removed (on sorted input the check can never fire;
`sublist_scan_eq_model` makes this precise).  A proof device only: the claim
theorems are stated about `sublist_that_contains_segment`. -/
def sublist_model (from_val to_val : SegVal) (x_to_val : α → SegVal) :
    List α → List α → List α
  | [], sublist => sublist
  | x :: rest, sublist =>
    if x_to_val x < from_val then sublist_model from_val to_val x_to_val rest [x]
    else if to_val < x_to_val x then sublist
    else sublist_model from_val to_val x_to_val rest (sublist ++ [x])

/-- Modelled from the spec: a contiguous run of markers whose key values are
`keys`, followed in the full marker list by a marker of value `next` (`none`
when the run reaches the end of the list), covers the interval `[f, t]` iff
the run is non-empty, its first value is at most `f`, and `t` lies strictly
below `next` — each marker starts the segment that extends to the next
marker's value, so the run's segments jointly span `[head, next)`. -/
def coversInterval (keys : List SegVal) (next : Option SegVal) (f t : SegVal) :
    Prop :=
  (∃ h0, keys.head? = some h0 ∧ h0 ≤ f) ∧ (∀ n, next = some n → t < n)

/-- Modelled from the spec: the external spatial nearest-neighbor index
capability (`build(points) → index`, `query_nearest(index, point) →
(neighbor, distance)`), which the source delegates to
`sklearn.neighbors.NearestNeighbors`, realized as a brute-force scan of the
reference points (1-D coordinates, absolute-difference metric).  Returns
`none` on an empty reference set. -/
def nn_query_nearest (q : ℤ) : List ℤ → Option (ℤ × ℤ)
  | [] => none
  | m :: rest =>
    match nn_query_nearest q rest with
    | none => some (m, |q - m|)
    | some (m0, d0) => if |q - m| ≤ d0 then some (m, |q - m|) else some (m0, d0)

/-- Embeds `gen_nearest_neighbor_matching_pairs(query_pts, match_pts, radius)`
(the spec's `nn_match`) in its point-pair output mode: for each query point
obtain its nearest reference point and distance (via `nn_query_nearest`, the
spec-modelled external capability) and keep the pair exactly when the distance
is `≤ radius`, preserving query order. -/
def gen_nearest_neighbor_matching_pairs (query_pts match_pts : List ℤ)
    (radius : ℤ) : List (ℤ × ℤ) :=
  query_pts.filterMap fun q =>
    match nn_query_nearest q match_pts with
    | none => none
    | some (m, dd) => if dd ≤ radius then some (q, m) else none

/-- The recursive equation of the source's `_close_pairs_helper`: when
`x1 > x2` it delegates to itself with the lists exchanged and the inversion
flag flipped. -/
theorem close_pairs_helper_swap_eq (x1 x2 : ℤ) (t1 t2 : List ℤ) (radius : ℤ)
    (inverted : Bool) (dist_func : ℤ → ℤ → ℤ) (h : ¬ x1 ≤ x2) :
    close_pairs_helper (x1 :: t1) (x2 :: t2) radius inverted dist_func =
      close_pairs_helper (x2 :: t2) (x1 :: t1) radius (!inverted) dist_func := by
  simp [close_pairs_helper, h, le_of_lt (lt_of_not_le h)]

/-! Properties of the forward scan `_first_pair_within_radius`. -/

/-- If the scan started at index `j` reports a match `(some i, some y)`, then
`j ≤ i`, the matched element `y` sits at offset `i - j` of the scanned list,
and its distance to `x2` is within the radius. -/
theorem first_pair_scan_match (x2 radius : ℤ) (dist_func : ℤ → ℤ → ℤ) :
    ∀ (l : List ℤ) (j i : ℕ) (y : ℤ),
      first_pair_scan x2 radius dist_func l j = (some i, some y) →
      j ≤ i ∧ l.drop (i - j) = y :: l.drop (i - j + 1) ∧ dist_func y x2 ≤ radius := by
  intro l
  induction l with
  | nil => intro j i y h; simp [first_pair_scan] at h
  | cons x1 rest ih =>
    intro j i y h
    simp only [first_pair_scan] at h
    by_cases h1 : x2 < x1
    · simp [h1] at h
    · rw [if_neg h1] at h
      by_cases h2 : dist_func x1 x2 ≤ radius
      · rw [if_pos h2] at h
        obtain ⟨hi, hy⟩ := Prod.mk.injEq .. ▸ h
        obtain rfl : j = i := Option.some.injEq .. ▸ hi.symm ▸ rfl
        obtain rfl : x1 = y := Option.some.injEq .. ▸ hy.symm ▸ rfl
        simpa using h2
      · rw [if_neg h2] at h
        obtain ⟨hj, hdrop, hd⟩ := ih (j + 1) i y h
        refine ⟨by omega, ?_, hd⟩
        have hij : i - j = i - (j + 1) + 1 := by omega
        rw [hij, List.drop_succ_cons, List.drop_succ_cons]
        exact hdrop

/-- If the scan reports no index (list exhausted) it reports no match. -/
theorem first_pair_scan_fst_none (x2 radius : ℤ) (dist_func : ℤ → ℤ → ℤ) :
    ∀ (l : List ℤ) (j : ℕ), (first_pair_scan x2 radius dist_func l j).1 = none →
      (first_pair_scan x2 radius dist_func l j).2 = none := by
  intro l
  induction l with
  | nil => intro j _; simp [first_pair_scan]
  | cons x1 rest ih =>
    intro j h
    simp only [first_pair_scan] at h ⊢
    by_cases h1 : x2 < x1
    · simp [h1] at h
    · rw [if_neg h1] at h ⊢
      by_cases h2 : dist_func x1 x2 ≤ radius
      · simp [h2] at h
      · rw [if_neg h2] at h ⊢
        exact ih (j + 1) h

/-- `_first_pair_within_radius` on a match: the matched element `y` is the
`i`-th element of the scanned list (so dropping `i` elements exposes it), and
`dist_func y x2 ≤ radius`. -/
theorem first_pair_within_radius_match (it1 : List ℤ) (x2 radius : ℤ)
    (dist_func : ℤ → ℤ → ℤ) (i : ℕ) (y : ℤ)
    (h : first_pair_within_radius it1 x2 radius dist_func = (some i, some y)) :
    it1.drop i = y :: it1.drop (i + 1) ∧ dist_func y x2 ≤ radius := by
  obtain ⟨-, hdrop, hd⟩ := first_pair_scan_match x2 radius dist_func it1 0 i y h
  simpa using ⟨hdrop, hd⟩

/-- A reported match always comes with its index: the result is never
`(none, some y)`. -/
theorem first_pair_within_radius_snd_some (it1 : List ℤ) (x2 radius : ℤ)
    (dist_func : ℤ → ℤ → ℤ) (y : ℤ)
    (h : (first_pair_within_radius it1 x2 radius dist_func).2 = some y) :
    ∃ i, first_pair_within_radius it1 x2 radius dist_func = (some i, some y) := by
  rcases hab : first_pair_within_radius it1 x2 radius dist_func with ⟨a, b⟩
  have hab' : first_pair_scan x2 radius dist_func it1 0 = (a, b) := hab
  rw [hab] at h
  simp only at h
  subst h
  rcases a with - | i
  · have h2 := first_pair_scan_fst_none x2 radius dist_func it1 0
    rw [hab'] at h2
    simp at h2
  · exact ⟨i, rfl⟩

/-! Unfolding equations for the scanning loop of `_close_pairs_helper`. -/

theorem close_pairs_loop_nil_left (it2 : List ℤ) (radius : ℤ) (inverted : Bool)
    (dist_func : ℤ → ℤ → ℤ) :
    close_pairs_loop [] it2 radius inverted dist_func = [] := by
  cases it2 <;> rfl

theorem close_pairs_loop_nil_right (it1 : List ℤ) (radius : ℤ) (inverted : Bool)
    (dist_func : ℤ → ℤ → ℤ) :
    close_pairs_loop it1 [] radius inverted dist_func = [] := by
  cases it1 <;> rfl

theorem close_pairs_loop_not_le (x1 x2 : ℤ) (t1 t2 : List ℤ) (radius : ℤ)
    (inverted : Bool) (dist_func : ℤ → ℤ → ℤ) (h : ¬ x1 ≤ x2) :
    close_pairs_loop (x1 :: t1) (x2 :: t2) radius inverted dist_func = [] := by
  simp only [close_pairs_loop]
  rw [if_neg h]

theorem close_pairs_loop_cons_match (x1 x2 : ℤ) (t1 t2 : List ℤ) (radius : ℤ)
    (inverted : Bool) (dist_func : ℤ → ℤ → ℤ) (i : ℕ) (y : ℤ) (h : x1 ≤ x2)
    (hfp : first_pair_within_radius (x1 :: t1) x2 radius dist_func = (some i, some y)) :
    close_pairs_loop (x1 :: t1) (x2 :: t2) radius inverted dist_func =
      (if inverted then (x2, y) else (y, x2)) ::
        close_pairs_loop ((x1 :: t1).drop (i + 1)) t2 radius inverted dist_func := by
  simp only [close_pairs_loop]
  rw [if_pos h, hfp]

theorem close_pairs_loop_cons_none (x1 x2 : ℤ) (t1 t2 : List ℤ) (radius : ℤ)
    (inverted : Bool) (dist_func : ℤ → ℤ → ℤ) (h : x1 ≤ x2)
    (hfp : (first_pair_within_radius (x1 :: t1) x2 radius dist_func).2 = none) :
    close_pairs_loop (x1 :: t1) (x2 :: t2) radius inverted dist_func = [] := by
  rcases hab : first_pair_within_radius (x1 :: t1) x2 radius dist_func with ⟨a, b⟩
  rw [hab] at hfp
  simp only at hfp
  subst hfp
  simp only [close_pairs_loop]
  rw [if_pos h, hab]
  cases a <;> rfl

/-! Membership properties of the scanning loop. -/

/-- Every pair produced by the loop arises from a scan match: it is
`(y, x2)` — or `(x2, y)` when inverted — for some scanned element `y` and
front `x2` with `dist_func y x2 ≤ radius`. -/
theorem close_pairs_loop_mem (radius : ℤ) (inverted : Bool)
    (dist_func : ℤ → ℤ → ℤ) :
    ∀ (it2 it1 : List ℤ) (p : ℤ × ℤ),
      p ∈ close_pairs_loop it1 it2 radius inverted dist_func →
      ∃ y x2, p = (if inverted then (x2, y) else (y, x2)) ∧
        dist_func y x2 ≤ radius := by
  intro it2
  induction it2 with
  | nil => intro it1 p hp; rw [close_pairs_loop_nil_right] at hp; cases hp
  | cons x2 t2 ih =>
    intro it1 p hp
    rcases it1 with - | ⟨x1, t1⟩
    · rw [close_pairs_loop_nil_left] at hp; cases hp
    by_cases hle : x1 ≤ x2
    · rcases hsnd : (first_pair_within_radius (x1 :: t1) x2 radius dist_func).2 with - | y
      · rw [close_pairs_loop_cons_none x1 x2 t1 t2 radius inverted dist_func hle hsnd] at hp
        cases hp
      · obtain ⟨i, hfp⟩ := first_pair_within_radius_snd_some _ _ _ _ _ hsnd
        rw [close_pairs_loop_cons_match x1 x2 t1 t2 radius inverted dist_func i y hle hfp] at hp
        rcases List.mem_cons.mp hp with hp | hp
        · exact ⟨y, x2, hp, (first_pair_within_radius_match _ _ _ _ _ _ hfp).2⟩
        · exact ih _ p hp
    · rw [close_pairs_loop_not_le x1 x2 t1 t2 radius inverted dist_func hle] at hp
      cases hp

/-- Non-inverted loop: the first components of the output form a sublist (an
order-preserving selection without reuse) of the scanned list `it1`, and the
second components form a sublist of `it2`. -/
theorem close_pairs_loop_sides_false (radius : ℤ) (dist_func : ℤ → ℤ → ℤ) :
    ∀ (it2 it1 : List ℤ),
      List.Sublist ((close_pairs_loop it1 it2 radius false dist_func).map Prod.fst) it1 ∧
      List.Sublist ((close_pairs_loop it1 it2 radius false dist_func).map Prod.snd) it2 := by
  intro it2
  induction it2 with
  | nil =>
    intro it1
    rw [close_pairs_loop_nil_right]
    exact ⟨List.nil_sublist _, List.nil_sublist _⟩
  | cons x2 t2 ih =>
    intro it1
    rcases it1 with - | ⟨x1, t1⟩
    · rw [close_pairs_loop_nil_left]
      exact ⟨List.nil_sublist _, List.nil_sublist _⟩
    by_cases hle : x1 ≤ x2
    · rcases hsnd : (first_pair_within_radius (x1 :: t1) x2 radius dist_func).2 with - | y
      · rw [close_pairs_loop_cons_none x1 x2 t1 t2 radius false dist_func hle hsnd]
        exact ⟨List.nil_sublist _, List.nil_sublist _⟩
      · obtain ⟨i, hfp⟩ := first_pair_within_radius_snd_some _ _ _ _ _ hsnd
        obtain ⟨hdrop, -⟩ := first_pair_within_radius_match _ _ _ _ _ _ hfp
        rw [close_pairs_loop_cons_match x1 x2 t1 t2 radius false dist_func i y hle hfp]
        obtain ⟨ih1, ih2⟩ := ih ((x1 :: t1).drop (i + 1))
        constructor
        · refine List.Sublist.trans ?_ (List.drop_sublist i (x1 :: t1))
          rw [hdrop]
          simpa using ih1.cons₂ y
        · simpa using ih2.cons₂ x2
    · rw [close_pairs_loop_not_le x1 x2 t1 t2 radius false dist_func hle]
      exact ⟨List.nil_sublist _, List.nil_sublist _⟩

/-- Inverted loop: the second components of the output form a sublist of the
scanned list `it1`, and the first components form a sublist of `it2`. -/
theorem close_pairs_loop_sides_true (radius : ℤ) (dist_func : ℤ → ℤ → ℤ) :
    ∀ (it2 it1 : List ℤ),
      List.Sublist ((close_pairs_loop it1 it2 radius true dist_func).map Prod.snd) it1 ∧
      List.Sublist ((close_pairs_loop it1 it2 radius true dist_func).map Prod.fst) it2 := by
  intro it2
  induction it2 with
  | nil =>
    intro it1
    rw [close_pairs_loop_nil_right]
    exact ⟨List.nil_sublist _, List.nil_sublist _⟩
  | cons x2 t2 ih =>
    intro it1
    rcases it1 with - | ⟨x1, t1⟩
    · rw [close_pairs_loop_nil_left]
      exact ⟨List.nil_sublist _, List.nil_sublist _⟩
    by_cases hle : x1 ≤ x2
    · rcases hsnd : (first_pair_within_radius (x1 :: t1) x2 radius dist_func).2 with - | y
      · rw [close_pairs_loop_cons_none x1 x2 t1 t2 radius true dist_func hle hsnd]
        exact ⟨List.nil_sublist _, List.nil_sublist _⟩
      · obtain ⟨i, hfp⟩ := first_pair_within_radius_snd_some _ _ _ _ _ hsnd
        obtain ⟨hdrop, -⟩ := first_pair_within_radius_match _ _ _ _ _ _ hfp
        rw [close_pairs_loop_cons_match x1 x2 t1 t2 radius true dist_func i y hle hfp]
        obtain ⟨ih1, ih2⟩ := ih ((x1 :: t1).drop (i + 1))
        constructor
        · refine List.Sublist.trans ?_ (List.drop_sublist i (x1 :: t1))
          rw [hdrop]
          simpa using ih1.cons₂ y
        · simpa using ih2.cons₂ x2
    · rw [close_pairs_loop_not_le x1 x2 t1 t2 radius true dist_func hle]
      exact ⟨List.nil_sublist _, List.nil_sublist _⟩

/-! Sanity checks: the doctests of the source, evaluated on the embedding. -/

example :
    gen_of_close_pairs_from_iterables ((List.range 20).map Int.ofNat) [5, 10, 15] 0 abs_diff =
      [(5, 5), (10, 10), (15, 15)] := by decide

example :
    gen_of_close_pairs_from_iterables ((List.range 20).map Int.ofNat) [5, 10, 15] 1 abs_diff =
      [(4, 5), (9, 10), (14, 15)] := by decide

example :
    gen_of_close_pairs_from_iterables [4, 7, 8, 11] [5, 10, 15] 1 abs_diff = [(4, 5)] := by decide

example :
    gen_of_close_pairs_from_iterables [4, 7, 8, 11] [5, 10, 15] 2 abs_diff =
      [(4, 5), (8, 10)] := by decide

example :
    gen_of_close_pairs_from_iterables [5, 10, 15] [4, 7, 8, 11] 2 abs_diff =
      [(5, 4), (10, 8)] := by decide

example :
    gen_of_close_pairs_from_iterables [5, 10, 15] [4, 7, 8, 11] 3 abs_diff =
      [(5, 4), (10, 7)] := by decide

example :
    sublist_that_contains_segment ([0, 5, 10, 15, 20, 25, 30] : List ℤ)
      (some (iv 11)) (some (iv 21)) iv = .ok [10, 15, 20] := rfl

example :
    sublist_that_contains_segment ([0, 5, 10, 15, 20, 25, 30] : List ℤ)
      (some (iv 10)) (some (iv 20)) iv = .ok [5, 10, 15, 20] := rfl

example :
    sublist_that_contains_segment ([0, 5, 10, 15, 20, 25, 30] : List ℤ)
      (some (iv 11)) none iv = .ok [10, 15, 20, 25, 30] := rfl

example :
    sublist_that_contains_segment ([0, 5, 10, 15, 20, 25, 30] : List ℤ)
      none (some (iv 21)) iv = .ok [0, 5, 10, 15, 20] := rfl

/-! Helper-level properties of `_close_pairs_helper`. -/

/-- Every pair produced by a non-inverted helper call was emitted because the
distance between its components — evaluated by the scan in one of the two
orders, depending on whether the roles were swapped — is within the radius. -/
theorem close_pairs_helper_mem_min (it1 it2 : List ℤ) (radius : ℤ)
    (dist_func : ℤ → ℤ → ℤ) (p : ℤ × ℤ)
    (hp : p ∈ close_pairs_helper it1 it2 radius false dist_func) :
    dist_func p.1 p.2 ≤ radius ∨ dist_func p.2 p.1 ≤ radius := by
  rcases it1 with - | ⟨x1, t1⟩
  · simp [close_pairs_helper] at hp
  rcases it2 with - | ⟨x2, t2⟩
  · simp [close_pairs_helper] at hp
  simp only [close_pairs_helper] at hp
  by_cases hle : x1 ≤ x2
  · rw [if_pos hle] at hp
    obtain ⟨y, z, hpe, hd⟩ := close_pairs_loop_mem radius false dist_func _ _ p hp
    simp only [if_neg (by simp : ¬ (false = true))] at hpe
    subst hpe
    exact Or.inl hd
  · rw [if_neg hle] at hp
    obtain ⟨y, z, hpe, hd⟩ := close_pairs_loop_mem radius true dist_func _ _ p hp
    simp only [if_pos (rfl : (true : Bool) = true)] at hpe
    subst hpe
    exact Or.inr hd

/-- Non-inverted helper call: first components of the output form a sublist of
`it1`, second components a sublist of `it2` (each input position is used at
most once, in order). -/
theorem close_pairs_helper_sides (it1 it2 : List ℤ) (radius : ℤ)
    (dist_func : ℤ → ℤ → ℤ) :
    List.Sublist ((close_pairs_helper it1 it2 radius false dist_func).map Prod.fst) it1 ∧
    List.Sublist ((close_pairs_helper it1 it2 radius false dist_func).map Prod.snd) it2 := by
  rcases it1 with - | ⟨x1, t1⟩
  · simp [close_pairs_helper]
  rcases it2 with - | ⟨x2, t2⟩
  · simp [close_pairs_helper]
  simp only [close_pairs_helper]
  by_cases hle : x1 ≤ x2
  · rw [if_pos hle]
    exact close_pairs_loop_sides_false radius dist_func (x2 :: t2) (x1 :: t1)
  · rw [if_neg hle]
    obtain ⟨h1, h2⟩ := close_pairs_loop_sides_true radius dist_func (x1 :: t1) (x2 :: t2)
    exact ⟨h2, h1⟩

/-- Top level: the first components of `gen_of_close_pairs_from_iterables`'s
output form a sublist of the sorted first input, and the second components a
sublist of the sorted second input. -/
theorem gen_of_close_pairs_sides (it1 it2 : List ℤ) (radius : ℤ)
    (dist_func : ℤ → ℤ → ℤ) :
    List.Sublist ((gen_of_close_pairs_from_iterables it1 it2 radius dist_func).map Prod.fst)
      (List.insertionSort (· ≤ ·) it1) ∧
    List.Sublist ((gen_of_close_pairs_from_iterables it1 it2 radius dist_func).map Prod.snd)
      (List.insertionSort (· ≤ ·) it2) := by
  have e1 : List.insertionSort (· ≤ ·) (List.insertionSort (· ≤ ·) it1) =
      List.insertionSort (· ≤ ·) it1 :=
    List.Sorted.insertionSort_eq (List.sorted_insertionSort _ it1)
  have e2 : List.insertionSort (· ≤ ·) (List.insertionSort (· ≤ ·) it2) =
      List.insertionSort (· ≤ ·) it2 :=
    List.Sorted.insertionSort_eq (List.sorted_insertionSort _ it2)
  unfold gen_of_close_pairs_from_iterables
  rw [e1, e2]
  exact close_pairs_helper_sides _ _ radius dist_func

/-! Properties of the spec-modelled nearest-neighbor capability. -/

/-- The distance reported by `nn_query_nearest` is the absolute difference to
the reported neighbor. -/
theorem nn_query_nearest_dist (q : ℤ) :
    ∀ (ms : List ℤ) (m dd : ℤ), nn_query_nearest q ms = some (m, dd) →
      dd = |q - m| := by
  intro ms
  induction ms with
  | nil => intro m dd h; simp [nn_query_nearest] at h
  | cons m0 rest ih =>
    intro m dd h
    simp only [nn_query_nearest] at h
    rcases hr : nn_query_nearest q rest with - | ⟨m1, d1⟩
    · rw [hr] at h
      have h' : some (m0, |q - m0|) = some (m, dd) := h
      simp only [Option.some.injEq, Prod.mk.injEq] at h'
      obtain ⟨rfl, rfl⟩ := h'
      rfl
    · rw [hr] at h
      have h' : (if |q - m0| ≤ d1 then some (m0, |q - m0|) else some (m1, d1)) =
          some (m, dd) := h
      by_cases hle : |q - m0| ≤ d1
      · rw [if_pos hle] at h'
        simp only [Option.some.injEq, Prod.mk.injEq] at h'
        obtain ⟨rfl, rfl⟩ := h'
        rfl
      · rw [if_neg hle] at h'
        simp only [Option.some.injEq, Prod.mk.injEq] at h'
        obtain ⟨rfl, rfl⟩ := h'
        exact ih _ _ hr

/-- Every pair kept by `gen_nearest_neighbor_matching_pairs` has distance
within the radius. -/
theorem nn_match_radius (query_pts match_pts : List ℤ) (radius : ℤ) (p : ℤ × ℤ)
    (hp : p ∈ gen_nearest_neighbor_matching_pairs query_pts match_pts radius) :
    |p.1 - p.2| ≤ radius := by
  simp only [gen_nearest_neighbor_matching_pairs, List.mem_filterMap] at hp
  obtain ⟨q, -, hf⟩ := hp
  rcases hn : nn_query_nearest q match_pts with - | ⟨m, dd⟩
  · rw [hn] at hf; simp at hf
  · rw [hn] at hf
    have hf' : (if dd ≤ radius then some (q, m) else none) = some p := hf
    by_cases hle : dd ≤ radius
    · rw [if_pos hle] at hf'
      simp only [Option.some.injEq] at hf'
      subst hf'
      simpa using (nn_query_nearest_dist q match_pts m dd hn) ▸ hle
    · rw [if_neg hle] at hf'
      simp at hf'

/-! Claim theorems for the close-pair generator and the nearest-neighbor
matcher. -/

/-- `d_oneway` is a non-negative distance function. -/
theorem d_oneway_nonneg (x y : ℤ) : 0 ≤ d_oneway x y := le_max_right _ _

/-- C1, counterexample: with the non-negative (but asymmetric) distance
function `d_oneway` and radius `0`, `close_pairs([5], [4])` emits the pair
`(5, 4)` — found by the role-swapped scan, which checked
`d_oneway 4 5 = 0 ≤ 0` — yet `d_oneway 5 4 = 1 > 0`, so the emitted pair does
not satisfy `distance_fn(a, b) ≤ radius` as the claim states it. -/
theorem radius_respected_cex :
    gen_of_close_pairs_from_iterables [5] [4] 0 d_oneway = [(5, 4)] ∧
    ¬ d_oneway 5 4 ≤ 0 := by decide

/-- C1, amended: for every pair of finite input sequences, every radius ≥ 0,
and every non-negative **symmetric** distance function, every pair `(a, b)`
emitted by `close_pairs` satisfies `distance_fn(a, b) ≤ radius`; likewise
every pair emitted by `nn_match` has nearest-neighbor distance ≤ radius. -/
theorem radius_respected (it1 it2 query_pts match_pts : List ℤ) (radius : ℤ)
    (dist_func : ℤ → ℤ → ℤ) (hr : 0 ≤ radius)
    (hnn : ∀ x y, 0 ≤ dist_func x y)
    (hsym : ∀ x y, dist_func x y = dist_func y x) :
    (∀ p ∈ gen_of_close_pairs_from_iterables it1 it2 radius dist_func,
        dist_func p.1 p.2 ≤ radius) ∧
    (∀ p ∈ gen_nearest_neighbor_matching_pairs query_pts match_pts radius,
        |p.1 - p.2| ≤ radius) := by
  constructor
  · intro p hp
    have hp' : p ∈ close_pairs_helper
        (List.insertionSort (· ≤ ·) (List.insertionSort (· ≤ ·) it1))
        (List.insertionSort (· ≤ ·) (List.insertionSort (· ≤ ·) it2))
        radius false dist_func := hp
    rcases close_pairs_helper_mem_min _ _ radius dist_func p hp' with h | h
    · exact h
    · rw [hsym]
      exact h
  · intro p hp
    exact nn_match_radius query_pts match_pts radius p hp

/-- Witness for `radius_respected` at concrete inputs. -/
theorem radius_respected_witness :
    (∀ p ∈ gen_of_close_pairs_from_iterables [5, 10, 15] [4, 7, 8, 11] 2 abs_diff,
        abs_diff p.1 p.2 ≤ 2) ∧
    (∀ p ∈ gen_nearest_neighbor_matching_pairs [0, 9] [1, 10] 2,
        |p.1 - p.2| ≤ 2) :=
  radius_respected [5, 10, 15] [4, 7, 8, 11] [0, 9] [1, 10] 2 abs_diff
    (by decide) (fun x y => abs_nonneg (x - y)) (fun x y => abs_sub_comm x y)

/-- C2: for any two finite input sequences, the first components of the pairs
produced by `close_pairs` form a sublist of the sorted first input and the
second components a sublist of the sorted second input: each position of each
(sorted) input is used in at most one pair, the used positions appear in
increasing order, and positions scanned past or dropped are never used
again. -/
theorem no_double_use (it1 it2 : List ℤ) (radius : ℤ)
    (dist_func : ℤ → ℤ → ℤ) :
    List.Sublist ((gen_of_close_pairs_from_iterables it1 it2 radius dist_func).map Prod.fst)
      (List.insertionSort (· ≤ ·) it1) ∧
    List.Sublist ((gen_of_close_pairs_from_iterables it1 it2 radius dist_func).map Prod.snd)
      (List.insertionSort (· ≤ ·) it2) :=
  gen_of_close_pairs_sides it1 it2 radius dist_func

/-- C4: every pair emitted by `close_pairs` is an ordered 2-tuple whose first
component is drawn from the first argument and whose second component is drawn
from the second argument, in the caller's original argument order regardless
of internal role-swapping; at the claim's example the swapped-argument outputs
are componentwise-swapped pairs. -/
theorem pair_order (it1 it2 : List ℤ) (radius : ℤ) (dist_func : ℤ → ℤ → ℤ) :
    (∀ p ∈ gen_of_close_pairs_from_iterables it1 it2 radius dist_func,
        p.1 ∈ it1 ∧ p.2 ∈ it2) ∧
    gen_of_close_pairs_from_iterables [5, 10, 15] [4, 7, 8, 11] 2 abs_diff =
      [(5, 4), (10, 8)] ∧
    gen_of_close_pairs_from_iterables [4, 7, 8, 11] [5, 10, 15] 2 abs_diff =
      [(4, 5), (8, 10)] := by
  refine ⟨?_, by decide, by decide⟩
  intro p hp
  obtain ⟨h1, h2⟩ := gen_of_close_pairs_sides it1 it2 radius dist_func
  constructor
  · have hm : p.1 ∈ (gen_of_close_pairs_from_iterables it1 it2 radius dist_func).map
        Prod.fst := List.mem_map_of_mem Prod.fst hp
    exact (List.mem_insertionSort (· ≤ ·)).mp (h1.subset hm)
  · have hm : p.2 ∈ (gen_of_close_pairs_from_iterables it1 it2 radius dist_func).map
        Prod.snd := List.mem_map_of_mem Prod.snd hp
    exact (List.mem_insertionSort (· ≤ ·)).mp (h2.subset hm)

/-- C3, counterexample: on `close_pairs([1,10], [2,9], radius=1)` the code
emits `(1, 2)` and then stops, although both remaining lists (`[10]` and
`[9]`) are non-empty and the elements `10` and `9` are within the radius: the
loop exits as soon as the new scanning front exceeds the other front instead
of swapping roles and continuing, so the claimed "pairing continues with roles
swapped" behavior does not hold. -/
theorem stop_conditions_cex :
    gen_of_close_pairs_from_iterables [1, 10] [2, 9] 1 abs_diff = [(1, 2)] ∧
    (10, 9) ∉ gen_of_close_pairs_from_iterables [1, 10] [2, 9] 1 abs_diff ∧
    abs_diff 10 9 ≤ 1 := by decide

/-- C3, amended: a (possibly role-swapped) invocation of the close-pair
recursion produces no pair exactly when one of the lists is empty or the
initial scan — of the smaller-fronted list against the other list's front —
fails to find a match (by overshooting or by exhausting the scanned list);
after each emitted pair the loop continues only while the scanning list's new
front is still ≤ the other list's new front, and roles are swapped only on
entry.  The claim's example holds:
`close_pairs([4,7,8,11], [5,10,15], radius=1) = [(4,5)]`. -/
theorem stop_conditions :
    (∀ (x1 x2 : ℤ) (t1 t2 : List ℤ) (radius : ℤ) (dist_func : ℤ → ℤ → ℤ),
      close_pairs_helper (x1 :: t1) (x2 :: t2) radius false dist_func = [] ↔
        (if x1 ≤ x2 then
          (first_pair_within_radius (x1 :: t1) x2 radius dist_func).2 = none
         else
          (first_pair_within_radius (x2 :: t2) x1 radius dist_func).2 = none)) ∧
    gen_of_close_pairs_from_iterables [4, 7, 8, 11] [5, 10, 15] 1 abs_diff =
      [(4, 5)] := by
  refine ⟨?_, by decide⟩
  intro x1 x2 t1 t2 radius dist_func
  simp only [close_pairs_helper]
  by_cases hle : x1 ≤ x2
  · rw [if_pos hle, if_pos hle]
    rcases hsnd : (first_pair_within_radius (x1 :: t1) x2 radius dist_func).2 with - | y
    · rw [close_pairs_loop_cons_none x1 x2 t1 t2 radius false dist_func hle hsnd]
      simp
    · obtain ⟨i, hfp⟩ := first_pair_within_radius_snd_some _ _ _ _ _ hsnd
      rw [close_pairs_loop_cons_match x1 x2 t1 t2 radius false dist_func i y hle hfp]
      simp
  · have hle' : x2 ≤ x1 := le_of_not_le hle
    rw [if_neg hle, if_neg hle]
    simp only [Bool.not_false]
    rcases hsnd : (first_pair_within_radius (x2 :: t2) x1 radius dist_func).2 with - | y
    · rw [close_pairs_loop_cons_none x2 x1 t2 t1 radius true dist_func hle' hsnd]
      simp
    · obtain ⟨i, hfp⟩ := first_pair_within_radius_snd_some _ _ _ _ _ hsnd
      rw [close_pairs_loop_cons_match x2 x1 t2 t1 radius true dist_func i y hle' hfp]
      simp

/-! Properties of `sublist_that_contains_segment`, via its error-free core
`sublist_model`. -/

/-- On key-sorted input (with the running `previous_val` below every upcoming
key value) the scan never raises, and computes `sublist_model`. -/
theorem sublist_scan_eq_model (f t : SegVal) (k : α → SegVal) :
    ∀ (m : List α) (prev : SegVal) (sub : List α),
      List.Sorted (fun a b => k a ≤ k b) m →
      (∀ x ∈ m, prev ≤ k x) →
      sublist_scan f t k m prev sub = .ok (sublist_model f t k m sub) := by
  intro m
  induction m with
  | nil => intro prev sub _ _; rfl
  | cons x rest ih =>
    intro prev sub hs hp
    have hsr := (List.sorted_cons.mp hs).2
    have hxr := (List.sorted_cons.mp hs).1
    have hpx : prev ≤ k x := hp x (List.mem_cons_self x rest)
    simp only [sublist_scan, sublist_model]
    rw [if_neg (not_lt.mpr hpx)]
    by_cases hf : k x < f
    · rw [if_pos hf, if_pos hf]
      exact ih (k x) [x] hsr hxr
    · rw [if_neg hf, if_neg hf]
      by_cases ht : t < k x
      · rw [if_pos ht, if_pos ht]
      · rw [if_neg ht, if_neg ht]
        exact ih (k x) (sub ++ [x]) hsr hxr

/-- A non-empty accumulator is never emptied by the scan. -/
theorem sublist_model_ne_nil (f t : SegVal) (k : α → SegVal) :
    ∀ (m sub : List α), sub ≠ [] → sublist_model f t k m sub ≠ [] := by
  intro m
  induction m with
  | nil => intro sub h; exact h
  | cons x rest ih =>
    intro sub h
    simp only [sublist_model]
    by_cases hf : k x < f
    · rw [if_pos hf]
      exact ih [x] (by simp)
    · rw [if_neg hf]
      by_cases ht : t < k x
      · rw [if_pos ht]
        exact h
      · rw [if_neg ht]
        exact ih (sub ++ [x]) (by simp)

/-- When `f ≤ t`, every element of the result that was not already in the
accumulator has key value at most `t` (markers beyond `to_val` are never
taken; reset markers are below `f ≤ t`). -/
theorem sublist_model_le_to (f t : SegVal) (k : α → SegVal) (hft : f ≤ t) :
    ∀ (m sub : List α) (x : α), x ∈ sublist_model f t k m sub →
      k x ≤ t ∨ x ∈ sub := by
  intro m
  induction m with
  | nil => intro sub x hx; exact Or.inr hx
  | cons y rest ih =>
    intro sub x hx
    simp only [sublist_model] at hx
    by_cases hf : k y < f
    · rw [if_pos hf] at hx
      rcases ih [y] x hx with h | h
      · exact Or.inl h
      · simp only [List.mem_singleton] at h
        subst h
        exact Or.inl (le_of_lt (lt_of_lt_of_le hf hft))
    · rw [if_neg hf] at hx
      by_cases ht : t < k y
      · rw [if_pos ht] at hx
        exact Or.inr hx
      · rw [if_neg ht] at hx
        rcases ih (sub ++ [y]) x hx with h | h
        · exact Or.inl h
        · rcases List.mem_append.mp h with h | h
          · exact Or.inr h
          · simp only [List.mem_singleton] at h
            subst h
            exact Or.inl (not_lt.mp ht)

/-- The result is the accumulator extended by a contiguous run of the input,
or (after a reset) a contiguous run of the input. -/
theorem sublist_model_infix (f t : SegVal) (k : α → SegVal) :
    ∀ (m sub : List α),
      (∃ mid post, m = mid ++ post ∧ sublist_model f t k m sub = sub ++ mid) ∨
      (∃ pre mid post, m = pre ++ mid ++ post ∧ sublist_model f t k m sub = mid) := by
  intro m
  induction m with
  | nil => intro sub; exact Or.inl ⟨[], [], rfl, by simp [sublist_model]⟩
  | cons y rest ih =>
    intro sub
    simp only [sublist_model]
    by_cases hf : k y < f
    · rw [if_pos hf]
      rcases ih [y] with ⟨mid, post, hm, he⟩ | ⟨pre, mid, post, hm, he⟩
      · exact Or.inr ⟨[], y :: mid, post, by simp [hm], by rw [he]; rfl⟩
      · exact Or.inr ⟨y :: pre, mid, post, by simp [hm], he⟩
    · rw [if_neg hf]
      by_cases ht : t < k y
      · rw [if_pos ht]
        exact Or.inl ⟨[], y :: rest, rfl, by simp⟩
      · rw [if_neg ht]
        rcases ih (sub ++ [y]) with ⟨mid, post, hm, he⟩ | ⟨pre, mid, post, hm, he⟩
        · exact Or.inl ⟨y :: mid, post, by simp [hm], by rw [he]; simp⟩
        · exact Or.inr ⟨y :: pre, mid, post, by simp [hm], he⟩

/-- If no upcoming marker is below `from_val`, the accumulator is never reset:
the result extends it on the right. -/
theorem sublist_model_no_reset (f t : SegVal) (k : α → SegVal) :
    ∀ (m sub : List α), (∀ x ∈ m, ¬ k x < f) →
      ∃ tail, sublist_model f t k m sub = sub ++ tail := by
  intro m
  induction m with
  | nil => intro sub _; exact ⟨[], by simp [sublist_model]⟩
  | cons y rest ih =>
    intro sub hnf
    simp only [sublist_model]
    rw [if_neg (hnf y (List.mem_cons_self y rest))]
    by_cases ht : t < k y
    · rw [if_pos ht]
      exact ⟨[], by simp⟩
    · rw [if_neg ht]
      obtain ⟨tail, he⟩ := ih (sub ++ [y]) (fun x hx => hnf x (List.mem_cons_of_mem y hx))
      exact ⟨y :: tail, by rw [he]; simp⟩

/-- On sorted input containing a marker below `from_val`, the result starts
with the largest such marker. -/
theorem sublist_model_pred (f t : SegVal) (k : α → SegVal) :
    ∀ (m : List α), List.Sorted (fun a b => k a ≤ k b) m →
      (∃ x ∈ m, k x < f) →
      ∀ (sub : List α), ∃ y, y ∈ m ∧ (sublist_model f t k m sub).head? = some y ∧
        k y < f ∧ ∀ x ∈ m, k x < f → k x ≤ k y := by
  intro m
  induction m with
  | nil => intro _ hex _; simp at hex
  | cons y0 rest ih =>
    intro hs hex sub
    have hsr := (List.sorted_cons.mp hs).2
    have hxr := (List.sorted_cons.mp hs).1
    by_cases hf : k y0 < f
    · simp only [sublist_model]
      rw [if_pos hf]
      by_cases hex' : ∃ x ∈ rest, k x < f
      · obtain ⟨y, hym, hh, hyf, hbd⟩ := ih hsr hex' [y0]
        refine ⟨y, List.mem_cons_of_mem y0 hym, hh, hyf, ?_⟩
        intro x hx hxf
        rcases List.mem_cons.mp hx with rfl | hx
        · exact hxr y hym
        · exact hbd x hx hxf
      · push_neg at hex'
        obtain ⟨tail, he⟩ := sublist_model_no_reset f t k rest [y0]
          (fun x hx => not_lt.mpr (hex' x hx))
        refine ⟨y0, List.mem_cons_self _ _, ?_, hf, ?_⟩
        · rw [he]
          rfl
        · intro x hx hxf
          rcases List.mem_cons.mp hx with rfl | hx
          · exact le_refl _
          · exact absurd hxf (not_lt.mpr (hex' x hx))
    · exfalso
      obtain ⟨x, hx, hxf⟩ := hex
      rcases List.mem_cons.mp hx with rfl | hx
      · exact hf hxf
      · exact hf (lt_of_le_of_lt (hxr x hx) hxf)

/-- If a configuration of the scan loop errors, so does the full function
started one marker earlier (the error message is unique). -/
theorem sublist_scan_error_of_descent (f t : SegVal) (k : α → SegVal)
    (a b : α) (rest : List α) (hab : k b < k a) :
    ∀ (p : List α) (prev : SegVal) (sub : List α),
      (∀ x ∈ p ++ [a], k x < f ∨ ¬ t < k x) →
      sublist_scan f t k (p ++ a :: b :: rest) prev sub =
        .error "sorted_ts is not sorted" := by
  intro p
  induction p with
  | nil =>
    intro prev sub hnb
    have ha := hnb a (by simp)
    simp only [List.nil_append, sublist_scan]
    by_cases h1 : k a < prev
    · rw [if_pos h1]
    · rw [if_neg h1]
      by_cases hf : k a < f
      · rw [if_pos hf]
        rw [if_pos hab]
      · rw [if_neg hf]
        rw [if_neg (ha.resolve_left hf)]
        rw [if_pos hab]
  | cons p0 p' ih =>
    intro prev sub hnb
    have hp0 := hnb p0 (by simp)
    simp only [List.cons_append, sublist_scan]
    by_cases h1 : k p0 < prev
    · rw [if_pos h1]
    · rw [if_neg h1]
      by_cases hf : k p0 < f
      · rw [if_pos hf]
        exact ih (k p0) [p0] (fun x hx => hnb x (List.mem_cons_of_mem p0 hx))
      · rw [if_neg hf]
        rw [if_neg (hp0.resolve_left hf)]
        exact ih (k p0) (sub ++ [p0]) (fun x hx => hnb x (List.mem_cons_of_mem p0 hx))

/-! Claim theorems for the coverage selector. -/

/-- C5, counterexample: at the spec's own example
`covering_sublist([0,5,10,15,20,25,30], 10, 20) = [5,10,15,20]`, dropping the
first element of the result still covers `[10, 20]` — the remaining run
`[10,15,20]` starts at `10 ≤ 10` and is followed by the marker `25 > 20` — so
the result is not left-minimal as the claim states. -/
theorem covering_minimality_cex :
    sublist_that_contains_segment ([0, 5, 10, 15, 20, 25, 30] : List ℤ)
      (some (iv 10)) (some (iv 20)) iv = .ok [5, 10, 15, 20] ∧
    coversInterval ((([5, 10, 15, 20] : List ℤ).drop 1).map iv) (some (iv 25))
      (iv 10) (iv 20) := by
  refine ⟨rfl, ⟨⟨iv 10, rfl, le_refl _⟩, ?_⟩⟩
  intro n hn
  injection hn with hn
  rw [← hn]
  decide

/-- C5, amended: for every key-sorted markers list and every interval with
`from_val ≤ to_val`, the selector succeeds and returns a contiguous sublist of
the input that never includes a marker whose key value exceeds `to_val`,
includes the largest marker whose key value is strictly below `from_val`
(when one exists, as its first element), and is right-minimal: dropping its
last element would break coverage of the interval.  (Left-minimality fails,
see the counterexample.) -/
theorem covering_superset_props (k : α → SegVal) (m : List α) (f t : SegVal)
    (hs : List.Sorted (fun a b => k a ≤ k b) m) (hft : f ≤ t) :
    ∃ s, sublist_that_contains_segment m (some f) (some t) k = .ok s ∧
      (∃ pre post, m = pre ++ s ++ post) ∧
      (∀ x ∈ s, k x ≤ t) ∧
      ((∃ x ∈ m, k x < f) →
        ∃ y, s.head? = some y ∧ k y < f ∧ ∀ x ∈ m, k x < f → k x ≤ k y) ∧
      (∀ y, s.getLast? = some y →
        ¬ coversInterval (s.dropLast.map k) (some (k y)) f t) := by
  refine ⟨sublist_model f t k m [],
    sublist_scan_eq_model f t k m negInf [] hs (fun x _ => bot_le), ?_, ?_, ?_, ?_⟩
  · rcases sublist_model_infix f t k m [] with ⟨mid, post, hm, he⟩ |
      ⟨pre, mid, post, hm, he⟩
    · exact ⟨[], post, by rw [he]; simpa using hm⟩
    · exact ⟨pre, post, by rw [he]; exact hm⟩
  · intro x hx
    rcases sublist_model_le_to f t k hft m [] x hx with h | h
    · exact h
    · cases h
  · intro hex
    obtain ⟨y, -, hh, hyf, hbd⟩ := sublist_model_pred f t k m hs hex []
    exact ⟨y, hh, hyf, hbd⟩
  · intro y hy hcov
    obtain ⟨-, h2⟩ := hcov
    have hty : t < k y := h2 (k y) rfl
    obtain ⟨hne, heq⟩ := List.mem_getLast?_eq_getLast
      (show y ∈ (sublist_model f t k m []).getLast? from hy)
    have hym : y ∈ sublist_model f t k m [] := heq ▸ List.getLast_mem hne
    rcases sublist_model_le_to f t k hft m [] y hym with h | h
    · exact absurd hty (not_lt.mpr h)
    · cases h

/-- Witness for `covering_superset_props` at the spec's example. -/
theorem covering_superset_props_witness :
    ∃ s, sublist_that_contains_segment ([0, 5, 10, 15, 20, 25, 30] : List ℤ)
        (some (iv 10)) (some (iv 20)) iv = .ok s ∧
      (∃ pre post, ([0, 5, 10, 15, 20, 25, 30] : List ℤ) = pre ++ s ++ post) ∧
      (∀ x ∈ s, iv x ≤ iv 20) ∧
      ((∃ x ∈ ([0, 5, 10, 15, 20, 25, 30] : List ℤ), iv x < iv 10) →
        ∃ y, s.head? = some y ∧ iv y < iv 10 ∧
          ∀ x ∈ ([0, 5, 10, 15, 20, 25, 30] : List ℤ), iv x < iv 10 → iv x ≤ iv y) ∧
      (∀ y, s.getLast? = some y →
        ¬ coversInterval (s.dropLast.map iv) (some (iv y)) (iv 10) (iv 20)) :=
  covering_superset_props iv [0, 5, 10, 15, 20, 25, 30] (iv 10) (iv 20)
    (by decide) (by decide)

/-- C6, counterexample: the input `[0, 100, 50]` contains the out-of-order
pair `(100, 50)`, yet `covering_sublist([0,100,50], 0, 10)` stops at the
marker `100 > 10` before examining `50` and returns `[0]` without raising the
sortedness error. -/
theorem covering_sortedness_cex :
    sublist_that_contains_segment ([0, 100, 50] : List ℤ) (some (iv 0))
      (some (iv 10)) iv = .ok [0] ∧
    iv 50 < iv 100 := ⟨rfl, by decide⟩

/-- C6, amended: on input whose key values are non-decreasing the selector
never raises; and it raises the sortedness error — immediately upon examining
the decreased marker — whenever a marker's key value is strictly below its
predecessor's and every earlier marker is actually examined (none of them
stops the scan by exceeding `to_val` while not being below `from_val`). -/
theorem covering_sortedness_check :
    (∀ (k : α → SegVal) (m : List α) (fv tv : Option SegVal),
      List.Sorted (fun a b => k a ≤ k b) m →
      ∃ s, sublist_that_contains_segment m fv tv k = .ok s) ∧
    (∀ (k : α → SegVal) (p : List α) (a b : α) (rest : List α)
      (fv tv : Option SegVal),
      k b < k a →
      (∀ x ∈ p ++ [a], k x < fv.getD negInf ∨ ¬ tv.getD posInf < k x) →
      sublist_that_contains_segment (p ++ a :: b :: rest) fv tv k =
        .error "sorted_ts is not sorted") := by
  constructor
  · intro k m fv tv hs
    exact ⟨sublist_model (fv.getD negInf) (tv.getD posInf) k m [],
      sublist_scan_eq_model (fv.getD negInf) (tv.getD posInf) k m negInf []
        hs (fun x _ => bot_le)⟩
  · intro k p a b rest fv tv hab hnb
    exact sublist_scan_error_of_descent (fv.getD negInf) (tv.getD posInf) k
      a b rest hab p negInf [] hnb

/-- Witness for `covering_sortedness_check`: a sorted input succeeds, and an
input with a decrease at the second marker errors. -/
theorem covering_sortedness_check_witness :
    (∃ s, sublist_that_contains_segment ([0, 5] : List ℤ) (some (iv 1))
      (some (iv 9)) iv = .ok s) ∧
    sublist_that_contains_segment ([5, 3] : List ℤ) (some (iv 0))
      (some (iv 9)) iv = .error "sorted_ts is not sorted" :=
  ⟨covering_sortedness_check.1 iv [0, 5] (some (iv 1)) (some (iv 9)) (by decide),
    covering_sortedness_check.2 iv [] 5 3 [] (some (iv 0)) (some (iv 9))
      (by decide) (by decide)⟩

/-- C7, counterexample: the non-empty sorted input `[100]` yields the empty
list when every marker exceeds `to_val` (`covering_sublist([100], 0, 10) =
[]`), so a non-empty result is not guaranteed for non-empty input. -/
theorem covering_nonempty_cex :
    sublist_that_contains_segment ([100] : List ℤ) (some (iv 0)) (some (iv 10))
      iv = .ok [] ∧
    ([100] : List ℤ) ≠ [] ∧
    List.Sorted (fun a b => iv a ≤ iv b) ([100] : List ℤ) :=
  ⟨rfl, by decide, by decide⟩

/-- C7, amended: on sorted input, the result can be empty only if the input is
empty or its very first marker's key value already exceeds `to_val` (and is
not below `from_val`): whenever the first marker is below `from_val` or at
most `to_val`, a non-empty sorted input yields a non-empty result. -/
theorem covering_nonempty (k : α → SegVal) (x0 : α) (m' : List α)
    (f t : SegVal) (hs : List.Sorted (fun a b => k a ≤ k b) (x0 :: m'))
    (hhead : k x0 < f ∨ k x0 ≤ t) :
    ∃ s, sublist_that_contains_segment (x0 :: m') (some f) (some t) k = .ok s ∧
      s ≠ [] := by
  refine ⟨sublist_model f t k (x0 :: m') [],
    sublist_scan_eq_model f t k (x0 :: m') negInf [] hs (fun x _ => bot_le), ?_⟩
  simp only [sublist_model]
  by_cases hf : k x0 < f
  · rw [if_pos hf]
    exact sublist_model_ne_nil f t k m' [x0] (by simp)
  · rw [if_neg hf]
    rw [if_neg (not_lt.mpr (hhead.resolve_left hf))]
    exact sublist_model_ne_nil f t k m' ([] ++ [x0]) (by simp)

/-- Witness for `covering_nonempty`. -/
theorem covering_nonempty_witness :
    ∃ s, sublist_that_contains_segment ([0, 5] : List ℤ) (some (iv 3))
        (some (iv 10)) iv = .ok s ∧ s ≠ [] :=
  covering_nonempty iv 0 [5] (iv 3) (iv 10) (by decide) (by decide)

/-- C10: a `None` bound is not an error: it is replaced by the corresponding
infinity, so the call with `from_val = None` (resp. `to_val = None`) returns
exactly the call with `-inf` (resp. `+inf`) substituted. -/
theorem covering_none_bounds (m : List α) (k : α → SegVal)
    (fv tv : Option SegVal) :
    sublist_that_contains_segment m none tv k =
      sublist_that_contains_segment m (some negInf) tv k ∧
    sublist_that_contains_segment m fv none k =
      sublist_that_contains_segment m fv (some posInf) k :=
  ⟨rfl, rfl⟩

/-! Claim theorem for empty inputs. -/

theorem close_pairs_helper_nil_left (it2 : List ℤ) (radius : ℤ)
    (inverted : Bool) (dist_func : ℤ → ℤ → ℤ) :
    close_pairs_helper [] it2 radius inverted dist_func = [] := by
  cases it2 <;> rfl

theorem close_pairs_helper_nil_right (it1 : List ℤ) (radius : ℤ)
    (inverted : Bool) (dist_func : ℤ → ℤ → ℤ) :
    close_pairs_helper it1 [] radius inverted dist_func = [] := by
  cases it1 <;> rfl

/-- The matcher yields nothing when the reference set is empty (the
spec-modelled index returns no neighbor). -/
theorem nn_match_nil_refs (query_pts : List ℤ) (radius : ℤ) :
    gen_nearest_neighbor_matching_pairs query_pts [] radius = [] := by
  induction query_pts with
  | nil => rfl
  | cons q qs ih =>
    simpa [gen_nearest_neighbor_matching_pairs, List.filterMap_cons,
      nn_query_nearest] using ih

/-- C8: empty inputs are not errors: `close_pairs` with an empty sequence on
either side, `covering_sublist` with an empty markers list, and `nn_match`
with an empty query or reference set all return an empty result. -/
theorem empty_inputs_yield_empty (l query_pts match_pts : List ℤ) (radius : ℤ)
    (dist_func : ℤ → ℤ → ℤ) (fv tv : Option SegVal) (k : α → SegVal) :
    gen_of_close_pairs_from_iterables [] l radius dist_func = [] ∧
    gen_of_close_pairs_from_iterables l [] radius dist_func = [] ∧
    sublist_that_contains_segment ([] : List α) fv tv k = .ok [] ∧
    gen_nearest_neighbor_matching_pairs [] match_pts radius = [] ∧
    gen_nearest_neighbor_matching_pairs query_pts [] radius = [] := by
  refine ⟨?_, ?_, rfl, rfl, nn_match_nil_refs query_pts radius⟩
  · unfold gen_of_close_pairs_from_iterables
    exact close_pairs_helper_nil_left _ _ _ _
  · unfold gen_of_close_pairs_from_iterables
    exact close_pairs_helper_nil_right _ _ _ _

/-- Witness for `pair_order`: the pair `(5, 4)` is produced at the claim's
example, and its components come from the first and second argument. -/
theorem pair_order_witness :
    ((5 : ℤ), (4 : ℤ)).1 ∈ ([5, 10, 15] : List ℤ) ∧
    ((5 : ℤ), (4 : ℤ)).2 ∈ ([4, 7, 8, 11] : List ℤ) :=
  (pair_order [5, 10, 15] [4, 7, 8, 11] 2 abs_diff).1 (5, 4) (by decide)
